import Mathlib

/-!
Verification of the SpiceEV discrete-event charging simulation: a shallow
embedding of the event model (`spice_ev/events.py`), the strategy stepper
(`netz_elog/strategy.py`), and the Schedule strategy's balanced-charging and
stationary-battery routines (`spice_ev/strategies/schedule.py`).

Numeric values are embedded as rationals, timestamps as integers (seconds);
Python floor division on timestamp differences is `Int.fdiv`.
-/

/-- An event as the simulation sees it: `signal_time` is when its information
becomes known, `start_time` when it takes effect (`spice_ev/events.py`,
class `Event` and subclasses). `payload` stands for the remaining fields. -/
structure SEvent where
  signal_time : ℤ
  start_time : ℤ
  payload : ℕ
deriving DecidableEq

/-- Bucket index of an event, from `Events.get_event_steps` (events.py line 63):
`-((start_time - event.signal_time) // interval)` with Python floor division. -/
def eventIndex (start_time interval : ℤ) (e : SEvent) : ℤ :=
  -((start_time - e.signal_time).fdiv interval)

/-- Result of `Events.get_event_steps`: one event list per interval plus the
two soft-anomaly counters (each reported once via a non-fatal warning). -/
structure EventSteps where
  steps : List (List SEvent)
  moved : ℕ
  ignored : ℕ
deriving DecidableEq

/-- Append an event to the `i`-th bucket (`steps[index].append(event)`). -/
def appendAt (ls : List (List SEvent)) (i : ℕ) (e : SEvent) : List (List SEvent) :=
  ls.set i (ls.getD i [] ++ [e])

/-- One iteration of the bucketing loop of `Events.get_event_steps`
(events.py lines 61-71). -/
def placeEvent (start_time interval : ℤ) (n_intervals : ℕ) (st : EventSteps)
    (e : SEvent) : EventSteps :=
  let index := eventIndex start_time interval e
  if index < 0 then
    { st with steps := appendAt st.steps 0 e, moved := st.moved + 1 }
  else if (n_intervals : ℤ) ≤ index then
    { st with ignored := st.ignored + 1 }
  else
    { st with steps := appendAt st.steps index.toNat e }

/-- `Events.get_event_steps(start_time, n_intervals, interval)` over a given
list of events (events.py lines 36-78). -/
def get_event_steps (start_time : ℤ) (n_intervals : ℕ) (interval : ℤ)
    (all_events : List SEvent) : EventSteps :=
  all_events.foldl (placeEvent start_time interval n_intervals)
    { steps := List.replicate n_intervals [], moved := 0, ignored := 0 }

/-- The bucket an event ends up in: clamped to 0 when early, dropped (`none`)
when past the horizon. -/
def bucketOf (start_time interval : ℤ) (n_intervals : ℕ) (e : SEvent) : Option ℕ :=
  let index := eventIndex start_time interval e
  if index < 0 then some 0
  else if (n_intervals : ℤ) ≤ index then none
  else some index.toNat

theorem eventIndex_eq_ceil (start_time interval : ℤ) (e : SEvent)
    (hiv : 0 < interval) :
    eventIndex start_time interval e
      = ⌈((e.signal_time - start_time : ℤ) : ℚ) / (interval : ℚ)⌉ := by
  unfold eventIndex
  symm
  rw [Int.ceil_eq_iff]
  have h0 : (0 : ℤ) ≤ (start_time - e.signal_time).fmod interval :=
    Int.fmod_nonneg' _ (by omega)
  have h1 : (start_time - e.signal_time).fmod interval < interval :=
    Int.fmod_lt_of_pos _ hiv
  have hsum : interval * (start_time - e.signal_time).fdiv interval
      + (start_time - e.signal_time).fmod interval = start_time - e.signal_time :=
    Int.fdiv_add_fmod _ _
  have hivQ : (0 : ℚ) < (interval : ℚ) := by exact_mod_cast hiv
  constructor
  · rw [lt_div_iff₀ hivQ]
    have key : (-((start_time - e.signal_time).fdiv interval) - 1) * interval
        < e.signal_time - start_time := by nlinarith [hsum, h1]
    push_cast
    exact_mod_cast key
  · rw [div_le_iff₀ hivQ]
    have key : e.signal_time - start_time
        ≤ -((start_time - e.signal_time).fdiv interval) * interval := by
      nlinarith [hsum, h0]
    push_cast
    exact_mod_cast key

theorem appendAt_length (ls : List (List SEvent)) (i : ℕ) (e : SEvent) :
    (appendAt ls i e).length = ls.length :=
  List.length_set ls i _

theorem appendAt_getD (ls : List (List SEvent)) (j i : ℕ) (e : SEvent)
    (hj : j < ls.length) :
    (appendAt ls j e).getD i []
      = if j = i then ls.getD j [] ++ [e] else ls.getD i [] := by
  unfold appendAt
  rw [List.getD_eq_getElem?_getD, List.getElem?_set]
  by_cases h : j = i
  · subst h
    simp [hj, List.getD_eq_getElem?_getD]
  · simp [h, List.getD_eq_getElem?_getD]

theorem placeEvent_steps_length (s iv : ℤ) (n : ℕ) (st : EventSteps) (e : SEvent) :
    (placeEvent s iv n st e).steps.length = st.steps.length := by
  unfold placeEvent
  dsimp only
  split_ifs <;> simp [appendAt_length]

theorem foldl_place_length (s iv : ℤ) (n : ℕ) (evs : List SEvent) (st : EventSteps) :
    (evs.foldl (placeEvent s iv n) st).steps.length = st.steps.length := by
  induction evs generalizing st with
  | nil => rfl
  | cons e es ih => rw [List.foldl_cons, ih, placeEvent_steps_length]

theorem placeEvent_getD (s iv : ℤ) (n : ℕ) (st : EventSteps) (e : SEvent) (i : ℕ)
    (hlen : st.steps.length = n) (hi : i < n) (hn : 0 < n) :
    (placeEvent s iv n st e).steps.getD i []
      = st.steps.getD i [] ++ (if bucketOf s iv n e = some i then [e] else []) := by
  by_cases h1 : eventIndex s iv e < 0
  · have hb : bucketOf s iv n e = some 0 := by simp [bucketOf, h1]
    have hp : (placeEvent s iv n st e).steps = appendAt st.steps 0 e := by
      simp [placeEvent, h1]
    rw [hp, hb, appendAt_getD _ _ _ _ (by omega)]
    by_cases h : i = 0
    · subst h; simp
    · simp [h, Ne.symm h]
  · by_cases h2 : (n : ℤ) ≤ eventIndex s iv e
    · have hb : bucketOf s iv n e = none := by simp [bucketOf, h1, h2]
      have hp : (placeEvent s iv n st e).steps = st.steps := by
        simp [placeEvent, h1, h2]
      rw [hp, hb]; simp
    · have hb : bucketOf s iv n e = some (eventIndex s iv e).toNat := by
        simp [bucketOf, h1, h2]
      have hp : (placeEvent s iv n st e).steps
          = appendAt st.steps (eventIndex s iv e).toNat e := by
        simp [placeEvent, h1, h2]
      have hidx : (eventIndex s iv e).toNat < n := by omega
      rw [hp, hb, appendAt_getD _ _ _ _ (by omega)]
      by_cases h : (eventIndex s iv e).toNat = i
      · subst h; simp
      · simp [h]

theorem foldl_place_getD (s iv : ℤ) (n : ℕ) (evs : List SEvent) (st : EventSteps)
    (hlen : st.steps.length = n) (i : ℕ) (hi : i < n) (hn : 0 < n) :
    (evs.foldl (placeEvent s iv n) st).steps.getD i []
      = st.steps.getD i []
        ++ evs.filter (fun e => bucketOf s iv n e == some i) := by
  induction evs generalizing st with
  | nil => simp
  | cons e es ih =>
    rw [List.foldl_cons,
      ih _ (by rw [placeEvent_steps_length]; exact hlen),
      placeEvent_getD s iv n st e i hlen hi hn, List.filter_cons]
    by_cases h : bucketOf s iv n e = some i
    · simp [h]
    · simp [h]

theorem foldl_place_moved (s iv : ℤ) (n : ℕ) (evs : List SEvent) (st : EventSteps) :
    (evs.foldl (placeEvent s iv n) st).moved
      = st.moved + (evs.filter (fun e => decide (eventIndex s iv e < 0))).length := by
  induction evs generalizing st with
  | nil => simp
  | cons e es ih =>
    rw [List.foldl_cons, ih, List.filter_cons]
    by_cases h : eventIndex s iv e < 0
    · have hm : (placeEvent s iv n st e).moved = st.moved + 1 := by
        simp [placeEvent, h]
      rw [hm]; simp [h]; omega
    · have hm : (placeEvent s iv n st e).moved = st.moved := by
        simp only [placeEvent]
        rw [if_neg h]
        split_ifs <;> rfl
      rw [hm]; simp [h]

theorem foldl_place_ignored (s iv : ℤ) (n : ℕ) (evs : List SEvent) (st : EventSteps)
    (hn : 0 < n) :
    (evs.foldl (placeEvent s iv n) st).ignored
      = st.ignored
        + (evs.filter (fun e => decide ((n : ℤ) ≤ eventIndex s iv e))).length := by
  induction evs generalizing st with
  | nil => simp
  | cons e es ih =>
    rw [List.foldl_cons, ih, List.filter_cons]
    by_cases h : (n : ℤ) ≤ eventIndex s iv e
    · have hpos : ¬ eventIndex s iv e < 0 := by omega
      have hg : (placeEvent s iv n st e).ignored = st.ignored + 1 := by
        simp [placeEvent, hpos, h]
      rw [hg]; simp [h]; omega
    · have hg : (placeEvent s iv n st e).ignored = st.ignored := by
        simp only [placeEvent]
        split_ifs <;> rfl
      rw [hg]; simp [h]

/-- C2: `get_event_steps` computes each event's bucket as the ceiling of
`(signal_time - start_time) / interval`; events with a negative index land in
bucket 0 and are counted in `moved` (one non-fatal warning), events past the
horizon are dropped and counted in `ignored` (one non-fatal warning), every
other event lands in exactly the bucket with its index, and `n_intervals`
sequences are produced in total. -/
theorem c2_get_event_steps_bucketing (s iv : ℤ) (n : ℕ) (evs : List SEvent)
    (hn : 0 < n) (hiv : 0 < iv) :
    (∀ e : SEvent, eventIndex s iv e
        = ⌈((e.signal_time - s : ℤ) : ℚ) / (iv : ℚ)⌉) ∧
    (get_event_steps s n iv evs).steps.length = n ∧
    (∀ i, i < n → (get_event_steps s n iv evs).steps.getD i []
        = evs.filter (fun e => bucketOf s iv n e == some i)) ∧
    (∀ e ∈ evs, eventIndex s iv e < 0 →
        e ∈ (get_event_steps s n iv evs).steps.getD 0 []) ∧
    (∀ e ∈ evs, 0 ≤ eventIndex s iv e → eventIndex s iv e < (n : ℤ) →
        e ∈ (get_event_steps s n iv evs).steps.getD (eventIndex s iv e).toNat []) ∧
    (∀ (e : SEvent) (i : ℕ), i < n → e ∈ (get_event_steps s n iv evs).steps.getD i [] →
        bucketOf s iv n e = some i) ∧
    (get_event_steps s n iv evs).moved
      = (evs.filter (fun e => decide (eventIndex s iv e < 0))).length ∧
    (get_event_steps s n iv evs).ignored
      = (evs.filter (fun e => decide ((n : ℤ) ≤ eventIndex s iv e))).length := by
  have hlen0 : (List.replicate n ([] : List SEvent)).length = n := by simp
  have hchar : ∀ i, i < n → (get_event_steps s n iv evs).steps.getD i []
      = evs.filter (fun e => bucketOf s iv n e == some i) := by
    intro i hi
    unfold get_event_steps
    rw [foldl_place_getD s iv n evs _ hlen0 i hi hn]
    have hrep : (List.replicate n ([] : List SEvent)).getD i [] = [] := by
      rw [List.getD_eq_getElem?_getD, List.getElem?_replicate]
      simp [hi]
    dsimp only
    rw [hrep, List.nil_append]
  refine ⟨fun e => eventIndex_eq_ceil s iv e hiv, ?_, hchar, ?_, ?_, ?_, ?_, ?_⟩
  · unfold get_event_steps
    rw [foldl_place_length]; exact hlen0
  · intro e he hneg
    rw [hchar 0 hn]
    rw [List.mem_filter]
    refine ⟨he, ?_⟩
    simp [bucketOf, hneg]
  · intro e he h0 hlt
    have hidx : (eventIndex s iv e).toNat < n := by omega
    rw [hchar _ hidx]
    rw [List.mem_filter]
    refine ⟨he, ?_⟩
    have hc1 : ¬ eventIndex s iv e < 0 := by omega
    have hc2 : ¬ (n : ℤ) ≤ eventIndex s iv e := by omega
    simp [bucketOf, hc1, hc2]
  · intro e i hi hmem
    rw [hchar i hi] at hmem
    rw [List.mem_filter] at hmem
    simpa using hmem.2
  · unfold get_event_steps
    rw [foldl_place_moved]
    simp
  · unfold get_event_steps
    rw [foldl_place_ignored _ _ _ _ _ hn]
    simp

/-- Witness for C2: start 0, interval 60 s, 2 intervals; an event signalled 3
intervals early lands in bucket 0, one signalled at 30 s lands in bucket 1,
one signalled past the horizon is dropped; one event is counted per anomaly. -/
theorem c2_get_event_steps_bucketing_witness :
    (⟨-180, -180, 0⟩ : SEvent) ∈
        (get_event_steps 0 2 60 [⟨-180, -180, 0⟩, ⟨30, 30, 1⟩, ⟨200, 200, 2⟩]).steps.getD 0 [] ∧
    (⟨30, 30, 1⟩ : SEvent) ∈
        (get_event_steps 0 2 60 [⟨-180, -180, 0⟩, ⟨30, 30, 1⟩, ⟨200, 200, 2⟩]).steps.getD 1 [] ∧
    (get_event_steps 0 2 60 [⟨-180, -180, 0⟩, ⟨30, 30, 1⟩, ⟨200, 200, 2⟩]).moved = 1 ∧
    (get_event_steps 0 2 60 [⟨-180, -180, 0⟩, ⟨30, 30, 1⟩, ⟨200, 200, 2⟩]).ignored = 1 := by
  obtain ⟨-, -, -, h0, hmid, -, hm, hig⟩ :=
    c2_get_event_steps_bucketing 0 60 2 [⟨-180, -180, 0⟩, ⟨30, 30, 1⟩, ⟨200, 200, 2⟩]
      (by decide) (by decide)
  refine ⟨h0 _ (by decide) (by decide), ?_, ?_, ?_⟩
  · have hmem := hmid ⟨30, 30, 1⟩ (by decide) (by decide) (by decide)
    have ht : (eventIndex 0 60 ⟨30, 30, 1⟩).toNat = 1 := by decide
    rwa [ht] at hmem
  · rw [hm]; decide
  · rw [hig]; decide

/-- Comparison key of the pending-queue sort in `Strategy.step`
(netz_elog/strategy.py line 31: `sort(key=lambda ev: ev.start_time)`). -/
def eventLE (a b : SEvent) : Bool := a.start_time ≤ b.start_time

/-- Head test of the pop loop in `Strategy.step` (line 36):
an event is applied once its `start_time` is not after `current_time`. -/
def dueNow (current_time : ℤ) (e : SEvent) : Bool := e.start_time ≤ current_time

/-- Event-queue handling of `Strategy.step` (netz_elog/strategy.py lines
27-41): merge the new events into the pending queue, stable-sort it by
`start_time`, then pop events from the front while the head is due.  Returns
the applied events (in application order) and the remaining queue. -/
def stepEventQueue (queue new_events : List SEvent) (current_time : ℤ) :
    List SEvent × List SEvent :=
  let q := (queue ++ new_events).mergeSort eventLE
  (q.takeWhile (dueNow current_time), q.dropWhile (dueNow current_time))

theorem eventLE_trans (a b c : SEvent) (h1 : eventLE a b = true)
    (h2 : eventLE b c = true) : eventLE a c = true := by
  simp only [eventLE, decide_eq_true_eq] at *
  omega

theorem eventLE_total (a b : SEvent) : (eventLE a b || eventLE b a) = true := by
  simp only [eventLE, Bool.or_eq_true, decide_eq_true_eq]
  omega

theorem mem_dropWhile_sorted (t : ℤ) (l : List SEvent)
    (hs : List.Pairwise (fun a b => eventLE a b = true) l) :
    ∀ e ∈ l.dropWhile (dueNow t), t < e.start_time := by
  induction l with
  | nil => simp
  | cons a l ih =>
    intro e he
    rw [List.dropWhile_cons] at he
    by_cases h : dueNow t a = true
    · rw [if_pos h] at he
      exact ih hs.of_cons e he
    · rw [if_neg h] at he
      have ha : t < a.start_time := by
        simp only [dueNow, decide_eq_true_eq] at h
        omega
      rcases List.mem_cons.mp he with rfl | hmem
      · exact ha
      · have hle := List.rel_of_pairwise_cons hs hmem
        simp only [eventLE, decide_eq_true_eq] at hle
        omega

theorem mergeSort_filter_start_eq (l : List SEvent) (c : ℤ) :
    (l.mergeSort eventLE).filter (fun e => e.start_time == c)
      = l.filter (fun e => e.start_time == c) := by
  have hall : ∀ e ∈ l.filter (fun e => e.start_time == c),
      e.start_time = c := by
    intro e he
    have := List.of_mem_filter he
    simpa using this
  have hpair : List.Pairwise (fun a b => eventLE a b = true)
      (l.filter (fun e => e.start_time == c)) := by
    apply List.pairwise_of_forall_mem_list
    intro a ha b hb
    simp only [eventLE, decide_eq_true_eq]
    rw [hall a ha, hall b hb]
  have hsub : (l.filter (fun e => e.start_time == c)).Sublist
      (l.mergeSort eventLE) :=
    List.sublist_mergeSort eventLE_trans eventLE_total hpair (List.filter_sublist l)
  have hsub2 : (l.filter (fun e => e.start_time == c)).Sublist
      ((l.mergeSort eventLE).filter (fun e => e.start_time == c)) := by
    have h := hsub.filter (fun e => e.start_time == c)
    rw [List.filter_filter] at h
    simpa only [Bool.and_self] using h
  have hlen : (l.filter (fun e => e.start_time == c)).length
      = ((l.mergeSort eventLE).filter (fun e => e.start_time == c)).length :=
    ((List.mergeSort_perm l eventLE).filter _).length_eq.symm
  exact (hsub2.eq_of_length hlen).symm

/-- C3: on each step the new events are merged into the pending queue, the
queue is sorted by `start_time` (a stable sort: ties keep their prior relative
order, stated via filters at each fixed `start_time`), events are popped and
applied in queue order exactly while the head is due
(`start_time ≤ current_time`), and the first deferred event together with
everything after it remains in the queue. -/
theorem c3_step_event_queue (queue new_events : List SEvent) (t : ℤ) :
    ((stepEventQueue queue new_events t).1 ++ (stepEventQueue queue new_events t).2
        = (queue ++ new_events).mergeSort eventLE) ∧
    ((queue ++ new_events).mergeSort eventLE).Perm (queue ++ new_events) ∧
    List.Pairwise (fun a b : SEvent => a.start_time ≤ b.start_time)
      ((queue ++ new_events).mergeSort eventLE) ∧
    (∀ c : ℤ, ((queue ++ new_events).mergeSort eventLE).filter
          (fun e => e.start_time == c)
        = (queue ++ new_events).filter (fun e => e.start_time == c)) ∧
    (∀ e ∈ (stepEventQueue queue new_events t).1, e.start_time ≤ t) ∧
    (∀ e ∈ (stepEventQueue queue new_events t).2, t < e.start_time) := by
  refine ⟨List.takeWhile_append_dropWhile _ _, List.mergeSort_perm _ _, ?_, ?_, ?_, ?_⟩
  · have := List.sorted_mergeSort eventLE_trans eventLE_total (queue ++ new_events)
    exact this.imp fun h => by simpa [eventLE] using h
  · exact fun c => mergeSort_filter_start_eq (queue ++ new_events) c
  · intro e he
    have := List.mem_takeWhile_imp he
    simpa [dueNow] using this
  · intro e he
    exact mem_dropWhile_sorted t _
      (List.sorted_mergeSort eventLE_trans eventLE_total (queue ++ new_events)) e he

/-- A tariff descriptor (the `cost` payload of a `GridOperatorSignal`). It
always carries a concrete entry, so its Python truthiness as a dict coincides
with its presence. -/
structure Cost where
  value : ℚ
deriving DecidableEq

/-- A grid connector's mutable state (netz_elog/constants.py `GridConnector`
together with the fields the stepper maintains on it). Following the spec's
data model, `max_power` is optional (unset means unlimited); Python truthiness
of the field (`if connector.max_power:`) is presence of a non-zero value. -/
structure GridConnector where
  max_power : Option ℚ
  cur_max_power : Option ℚ
  cost : Option Cost
  current_loads : List (String × ℚ)
  target : Option ℚ
deriving DecidableEq

/-- Python truthiness of an optional numeric field. -/
def pyTruthy : Option ℚ → Bool
  | none => false
  | some v => v != 0

/-- The `GridOperatorSignal` fields the stepper reads (events.py lines
156-171; optional fields absent from the input are `None`). -/
structure OperatorSignal where
  cost : Option Cost
  max_power : Option ℚ
deriving DecidableEq

/-- Application of a `GridOperatorSignal` event to its grid connector
(netz_elog/strategy.py lines 51-65). -/
def applyGridOperatorSignal (gc : GridConnector) (ev : OperatorSignal) :
    GridConnector :=
  { gc with
    cost := if ev.cost.isSome then ev.cost else gc.cost
    cur_max_power :=
      if pyTruthy gc.max_power then
        match ev.max_power with
        | none => gc.max_power
        | some p => some (min (gc.max_power.getD 0) p)
      else
        ev.max_power }

/-- C4: applying a `GridOperatorSignal` updates the connector's cost only if
the event carries one; `cur_max_power` becomes `min` of connector and event
caps when both are defined, the connector's cap when only it is defined, and
the event's cap when only the event's is defined; everything else on the
connector is unchanged.  ("Defined" for the connector's cap is Python
truthiness, so the cap is assumed non-zero when present.) -/
theorem c4_apply_grid_operator_signal (gc : GridConnector) (ev : OperatorSignal)
    (hdz : gc.max_power ≠ some 0) :
    (ev.cost = none → (applyGridOperatorSignal gc ev).cost = gc.cost) ∧
    (∀ cst, ev.cost = some cst → (applyGridOperatorSignal gc ev).cost = some cst) ∧
    (∀ v p, gc.max_power = some v → ev.max_power = some p →
        (applyGridOperatorSignal gc ev).cur_max_power = some (min v p)) ∧
    (∀ v, gc.max_power = some v → ev.max_power = none →
        (applyGridOperatorSignal gc ev).cur_max_power = some v) ∧
    (∀ p, gc.max_power = none → ev.max_power = some p →
        (applyGridOperatorSignal gc ev).cur_max_power = some p) ∧
    (applyGridOperatorSignal gc ev).max_power = gc.max_power ∧
    (applyGridOperatorSignal gc ev).current_loads = gc.current_loads ∧
    (applyGridOperatorSignal gc ev).target = gc.target := by
  refine ⟨?_, ?_, ?_, ?_, ?_, rfl, rfl, rfl⟩
  · intro h
    simp [applyGridOperatorSignal, h]
  · intro cst h
    simp [applyGridOperatorSignal, h]
  · intro v p hv hp
    have hvz : v ≠ 0 := fun h => hdz (by rw [hv, h])
    simp [applyGridOperatorSignal, hv, hp, pyTruthy, hvz]
  · intro v hv hp
    have hvz : v ≠ 0 := fun h => hdz (by rw [hv, h])
    simp [applyGridOperatorSignal, hv, hp, pyTruthy, hvz]
  · intro p hv hp
    simp [applyGridOperatorSignal, hv, hp, pyTruthy]

/-- Witness for C4: a connector capped at 10 kW receiving a signal with
cost 0.25 and cap 4 kW ends with `cur_max_power = min 10 4 = 4`. -/
theorem c4_apply_grid_operator_signal_witness :
    (applyGridOperatorSignal ⟨some 10, some 10, none, [], none⟩
        ⟨some ⟨25/100⟩, some 4⟩).cur_max_power = some 4 ∧
    (applyGridOperatorSignal ⟨some 10, some 10, none, [], none⟩
        ⟨some ⟨25/100⟩, some 4⟩).cost = some ⟨25/100⟩ := by
  obtain ⟨-, hcost, hboth, -, -, -, -, -⟩ :=
    c4_apply_grid_operator_signal ⟨some 10, some 10, none, [], none⟩
      ⟨some ⟨25/100⟩, some 4⟩ (by decide)
  constructor
  · have h := hboth 10 4 rfl rfl
    rw [h]; norm_num
  · exact hcost _ rfl

/-- A vehicle as the stepper sees it (netz_elog/constants.py `Vehicle`; `soc`
is its battery's state of charge). -/
structure StepVehicle where
  connected_charging_station : Option String
  desired_soc : ℚ
  soc : ℚ
deriving DecidableEq

/-- Default departure margin of the stepper (netz_elog/strategy.py line 22:
`self.margin = 0.05`). -/
def stepperMargin : ℚ := 5 / 100

/-- Departure branch of `Strategy.step` (netz_elog/strategy.py lines 71-73),
for the vehicle after the event's update map was applied: clear the connected
charging station, then assert the battery SOC is within the margin of
`desired_soc` (a failed assertion aborts the run). -/
def applyDeparture (v : StepVehicle) : Except String StepVehicle :=
  let v2 := { v with connected_charging_station := none }
  if (1 - stepperMargin) * v.desired_soc ≤ v2.soc then Except.ok v2
  else Except.error "vehicle is below desired SOC"

/-- C5: a departure clears the vehicle's connected charging station and is
fatal exactly when the battery SOC is below `(1 - 0.05) * desired_soc`; in
particular a vehicle with desired SOC 0.9 departing at SOC 0.5 is fatal. -/
theorem c5_apply_departure (v : StepVehicle) :
    ((∃ msg, applyDeparture v = Except.error msg) ↔
        v.soc < (1 - 5/100) * v.desired_soc) ∧
    (∀ v2, applyDeparture v = Except.ok v2 →
        v2.connected_charging_station = none ∧ v2.soc = v.soc ∧
        v2.desired_soc = v.desired_soc) ∧
    applyDeparture ⟨some "CS1", 9/10, 1/2⟩ = Except.error "vehicle is below desired SOC" := by
  refine ⟨?_, ?_, by norm_num [applyDeparture, stepperMargin]⟩
  · unfold applyDeparture stepperMargin
    by_cases h : (1 - 5/100 : ℚ) * v.desired_soc ≤ v.soc
    · rw [if_pos h]
      simp only [reduceCtorEq, exists_const, false_iff, not_lt]
      exact h
    · rw [if_neg h]
      simp only [Except.error.injEq, exists_eq', true_iff]
      exact lt_of_not_ge h
  · intro v2 h2
    unfold applyDeparture at h2
    by_cases h : (1 - stepperMargin) * v.desired_soc ≤ v.soc
    · rw [if_pos h] at h2
      cases h2
      exact ⟨rfl, rfl, rfl⟩
    · rw [if_neg h] at h2
      cases h2

/-- Removal of charging-station entries from a connector's `current_loads`
(netz_elog/strategy.py lines 87-90). -/
def removeStationLoads (station_ids : List String) (loads : List (String × ℚ)) :
    List (String × ℚ) :=
  loads.filter (fun kv => !(station_ids.contains kv.1))

/-- Per-connector cleanup at the end of `Strategy.step` (netz_elog/strategy.py
lines 85-94): drop every `current_loads` entry keyed by a charging station,
then fail if the connector has no cost. -/
def cleanupConnector (station_ids : List String) (gc : GridConnector) :
    Except String GridConnector :=
  let gc2 := { gc with current_loads := removeStationLoads station_ids gc.current_loads }
  if gc2.cost.isSome then Except.ok gc2
  else Except.error "connector has no associated costs"

/-- The cleanup loop of `Strategy.step` over all connectors. -/
def cleanupConnectors (station_ids : List String) :
    List (String × GridConnector) → Except String (List (String × GridConnector))
  | [] => Except.ok []
  | (nm, gc) :: rest =>
    match cleanupConnector station_ids gc with
    | Except.error msg => Except.error msg
    | Except.ok gc2 =>
      match cleanupConnectors station_ids rest with
      | Except.error msg => Except.error msg
      | Except.ok rest2 => Except.ok ((nm, gc2) :: rest2)

/-- C6: after event application every `current_loads` entry keyed by a
charging station is removed, the other entries survive in order, and the step
fails exactly when some connector's cost is undefined. -/
theorem c6_cleanup_connectors (station_ids : List String) (gc : GridConnector)
    (gcs : List (String × GridConnector)) :
    (∀ kv ∈ removeStationLoads station_ids gc.current_loads,
        kv ∈ gc.current_loads ∧ station_ids.contains kv.1 = false) ∧
    (∀ kv ∈ gc.current_loads, station_ids.contains kv.1 = false →
        kv ∈ removeStationLoads station_ids gc.current_loads) ∧
    (removeStationLoads station_ids gc.current_loads).Sublist gc.current_loads ∧
    (∀ gc2, cleanupConnector station_ids gc = Except.ok gc2 →
        gc2.current_loads = removeStationLoads station_ids gc.current_loads ∧
        gc2.cost = gc.cost) ∧
    ((∃ msg, cleanupConnector station_ids gc = Except.error msg) ↔ gc.cost = none) ∧
    ((∃ msg, cleanupConnectors station_ids gcs = Except.error msg) ↔
        ∃ pr ∈ gcs, pr.2.cost = none) := by
  refine ⟨?_, ?_, List.filter_sublist _, ?_, ?_, ?_⟩
  · intro kv hkv
    have hm := List.mem_of_mem_filter hkv
    have hp := List.of_mem_filter hkv
    simp only [Bool.not_eq_true'] at hp
    exact ⟨hm, hp⟩
  · intro kv hkv hns
    apply List.mem_filter.mpr
    exact ⟨hkv, by rw [hns]; rfl⟩
  · intro gc2 h2
    unfold cleanupConnector at h2
    by_cases h : gc.cost.isSome
    · rw [if_pos (by simpa using h)] at h2
      cases h2
      exact ⟨rfl, rfl⟩
    · rw [if_neg (by simpa using h)] at h2
      cases h2
  · unfold cleanupConnector
    by_cases h : gc.cost.isSome
    · rw [if_pos (by simpa using h)]
      simp only [reduceCtorEq, exists_const, false_iff]
      intro hnone
      rw [hnone] at h
      simp at h
    · rw [if_neg (by simpa using h)]
      simp only [Except.error.injEq, exists_eq', true_iff]
      exact Option.not_isSome_iff_eq_none.mp (by simpa using h)
  · induction gcs with
    | nil => simp [cleanupConnectors]
    | cons pr rest ih =>
      obtain ⟨nm, g⟩ := pr
      by_cases hg : g.cost.isSome
      · obtain ⟨cv, hcv⟩ := Option.isSome_iff_exists.mp hg
        have hok : cleanupConnector station_ids g = Except.ok
            { g with current_loads := removeStationLoads station_ids g.current_loads } := by
          simp [cleanupConnector, hcv]
        have hgnone : g.cost ≠ none := Option.ne_none_iff_isSome.mpr hg
        rcases hrest : cleanupConnectors station_ids rest with msg2 | rest2
        · have hwhole : cleanupConnectors station_ids ((nm, g) :: rest)
              = Except.error msg2 := by
            simp only [cleanupConnectors, hok, hrest]
          rw [hwhole]
          simp only [Except.error.injEq, exists_eq', true_iff]
          obtain ⟨pr2, hpr2, hc⟩ := ih.mp ⟨msg2, hrest⟩
          exact ⟨pr2, List.mem_cons_of_mem _ hpr2, hc⟩
        · have hwhole : cleanupConnectors station_ids ((nm, g) :: rest)
              = Except.ok ((nm,
                  { g with current_loads := removeStationLoads station_ids g.current_loads })
                :: rest2) := by
            simp only [cleanupConnectors, hok, hrest]
          rw [hwhole]
          simp only [reduceCtorEq, exists_const, false_iff]
          intro hex
          obtain ⟨pr2, hpr2, hc⟩ := hex
          rcases List.mem_cons.mp hpr2 with heq | hmem
          · rw [heq] at hc
            exact hgnone hc
          · obtain ⟨msg, hmsg⟩ := ih.mpr ⟨pr2, hmem, hc⟩
            rw [hmsg] at hrest
            simp at hrest
      · have hgn : g.cost = none := Option.not_isSome_iff_eq_none.mp (by simpa using hg)
        have herr : cleanupConnector station_ids g
            = Except.error "connector has no associated costs" := by
          simp [cleanupConnector, hgn]
        have hwhole : cleanupConnectors station_ids ((nm, g) :: rest)
            = Except.error "connector has no associated costs" := by
          simp only [cleanupConnectors, herr]
        rw [hwhole]
        simp only [Except.error.injEq, exists_eq', true_iff]
        exact ⟨(nm, g), List.mem_cons_self _ _, hgn⟩

/-- A timestamped power-value event produced by `EnergyValuesList.get_events`
(events.py lines 126-153); times here are rationals (seconds). -/
structure ValueEvent where
  signal_time : ℚ
  start_time : ℚ
  value : ℚ
deriving DecidableEq

/-- `EnergyValuesList` (events.py lines 99-124): a periodic series with a
start time, fixed step duration, sample values and a scaling factor. -/
structure EnergyValuesList where
  start_time : ℚ
  step_duration : ℚ
  values : List ℚ
  factor : ℚ
deriving DecidableEq

/-- `EnergyValuesList.get_events` (events.py lines 126-153): one event per
entry of `values + [0]` (a trailing zero sample is appended), the `i`-th at
`start_time + step_duration * i` with value `values[i] * factor`; with perfect
foresight all events are signalled at `start_time`, otherwise each at its own
start time. -/
def EnergyValuesList.get_events (l : EnergyValuesList)
    (has_perfect_foresight : Bool) : List ValueEvent :=
  ((l.values ++ [0]).enum).map fun (iv : ℕ × ℚ) =>
    { signal_time := if has_perfect_foresight then l.start_time
        else l.start_time + l.step_duration * (iv.1 : ℚ),
      start_time := l.start_time + l.step_duration * (iv.1 : ℚ),
      value := iv.2 * l.factor }

/-- Counterexample to C9: a series with a single sample produces two events
(the sample plus the appended zero), not "exactly one event per sample". -/
theorem c9_one_event_per_sample_cex :
    ((⟨0, 1, [5], 2⟩ : EnergyValuesList).get_events false).length = 2 ∧
    ¬ ((⟨0, 1, [5], 2⟩ : EnergyValuesList).get_events false).length
        = [(5 : ℚ)].length := by
  constructor
  · rfl
  · intro h
    simp [EnergyValuesList.get_events] at h

/-- C9 (amended): `get_events` produces one event per sample plus one final
zero-valued event at `start_time + n * step_duration`; the `i`-th event starts
at `start_time + i * step_duration` with value `(values + [0])[i] * factor`,
and every event is signalled at `start_time` under perfect foresight and at
its own start time otherwise. -/
theorem c9_get_events_amended (l : EnergyValuesList) (p : Bool) :
    (l.get_events p).length = l.values.length + 1 ∧
    (∀ i, i < l.values.length + 1 →
        (l.get_events p).getD i ⟨0, 0, 0⟩
          = { signal_time := if p then l.start_time
                else l.start_time + l.step_duration * (i : ℚ),
              start_time := l.start_time + l.step_duration * (i : ℚ),
              value := (l.values ++ [0]).getD i 0 * l.factor }) ∧
    ((l.get_events p).getD l.values.length ⟨0, 0, 0⟩).value = 0 ∧
    (∀ e ∈ l.get_events p,
        e.signal_time = if p then l.start_time else e.start_time) := by
  have hlen : (l.values ++ [(0 : ℚ)]).length = l.values.length + 1 := by simp
  have hmain : ∀ i, i < l.values.length + 1 →
      (l.get_events p).getD i ⟨0, 0, 0⟩
        = { signal_time := if p then l.start_time
              else l.start_time + l.step_duration * (i : ℚ),
            start_time := l.start_time + l.step_duration * (i : ℚ),
            value := (l.values ++ [0]).getD i 0 * l.factor } := by
    intro i hi
    have hi2 : i < (l.values ++ [(0 : ℚ)]).length := by omega
    unfold EnergyValuesList.get_events
    rw [List.getD_eq_getElem?_getD, List.getElem?_map, List.getElem?_enum,
      List.getElem?_eq_getElem hi2]
    rw [List.getD_eq_getElem?_getD, List.getElem?_eq_getElem hi2]
    rfl
  refine ⟨?_, hmain, ?_, ?_⟩
  · unfold EnergyValuesList.get_events
    simp
  · rw [hmain l.values.length (by omega)]
    have hz : (l.values ++ [(0 : ℚ)]).getD l.values.length 0 = 0 := by
      rw [List.getD_eq_getElem?_getD, List.getElem?_append_right (le_refl _)]
      simp
    rw [hz, zero_mul]
  · intro e he
    unfold EnergyValuesList.get_events at he
    obtain ⟨iv, hmem, rfl⟩ := List.mem_map.mp he
    cases p <;> simp

/-- Modelled from the spec: the battery component.  The repository's battery
module (class `Battery` with `load`/`unload`, file battery.py) is not under
src/ — only its callers are.  Per the spec's data model, "`load`/`unload`
operations advance SOC over a duration given a target power or target SOC,
respecting the charging curve and never pushing SOC outside [0,1]".  The
charging and unloading curves are abstracted by their maximum power; durations
are in hours, energies in kWh, `efficiency` applies to both conversions. -/
structure Battery where
  capacity : ℚ
  soc : ℚ
  efficiency : ℚ
  curve_max_power : ℚ
  unloading_max_power : ℚ
  min_charging_power : ℚ
deriving DecidableEq

/-- Result record of a battery operation: average grid-side power over the
duration and the change in SOC. -/
structure PowerResult where
  avg_power : ℚ
  soc_delta : ℚ
deriving DecidableEq

/-- Modelled from the spec: `Battery.load` — charge at up to `power` (clamped
to the charging curve and to non-negative values), never raising the SOC above
`target_soc` (callers pass 1 when the source leaves it defaulted). -/
def Battery.load (b : Battery) (dt_hours power target_soc : ℚ) :
    Battery × PowerResult :=
  let p := max (min power b.curve_max_power) 0
  let soc_delta := min (p * dt_hours * b.efficiency / b.capacity)
    (max (target_soc - b.soc) 0)
  ({ b with soc := b.soc + soc_delta },
   { avg_power := if 0 < dt_hours then soc_delta * b.capacity / (b.efficiency * dt_hours)
       else 0,
     soc_delta := soc_delta })

/-- Modelled from the spec: `Battery.unload` — discharge at up to `power`
(clamped to the unloading curve and to non-negative values), never drawing
the SOC below `target_soc`. -/
def Battery.unload (b : Battery) (dt_hours power target_soc : ℚ) :
    Battery × PowerResult :=
  let p := max (min power b.unloading_max_power) 0
  let drop := min (p * dt_hours / (b.capacity * b.efficiency))
    (max (b.soc - target_soc) 0)
  ({ b with soc := b.soc - drop },
   { avg_power := if 0 < dt_hours then drop * b.capacity * b.efficiency / dt_hours
       else 0,
     soc_delta := -drop })

theorem Battery.load_soc_delta_nonneg (b : Battery) (dt power tsoc : ℚ)
    (hcap : 0 < b.capacity) (heff : 0 < b.efficiency) (hdt : 0 ≤ dt) :
    0 ≤ (b.load dt power tsoc).2.soc_delta := by
  simp only [Battery.load]
  exact le_min
    (div_nonneg (mul_nonneg (mul_nonneg (le_max_right _ _) hdt) heff.le) hcap.le)
    (le_max_right _ _)

theorem Battery.load_avg_nonneg (b : Battery) (dt power tsoc : ℚ)
    (hcap : 0 < b.capacity) (heff : 0 < b.efficiency) (hdt : 0 ≤ dt) :
    0 ≤ (b.load dt power tsoc).2.avg_power := by
  have hd := Battery.load_soc_delta_nonneg b dt power tsoc hcap heff hdt
  simp only [Battery.load] at hd ⊢
  split_ifs with h
  · exact div_nonneg (mul_nonneg hd hcap.le) (mul_nonneg heff.le h.le)
  · exact le_refl 0

theorem Battery.load_avg_le (b : Battery) (dt power tsoc : ℚ)
    (hcap : 0 < b.capacity) (heff : 0 < b.efficiency) (hdt : 0 < dt) :
    (b.load dt power tsoc).2.avg_power ≤ max power 0 := by
  simp only [Battery.load]
  rw [if_pos hdt]
  have hp : max (min power b.curve_max_power) 0 ≤ max power 0 :=
    max_le_max (min_le_left _ _) (le_refl 0)
  have hds : min (max (min power b.curve_max_power) 0 * dt * b.efficiency / b.capacity)
      (max (tsoc - b.soc) 0)
      ≤ max (min power b.curve_max_power) 0 * dt * b.efficiency / b.capacity :=
    min_le_left _ _
  have heffdt : 0 < b.efficiency * dt := mul_pos heff hdt
  rw [div_le_iff₀ heffdt]
  calc min (max (min power b.curve_max_power) 0 * dt * b.efficiency / b.capacity)
        (max (tsoc - b.soc) 0) * b.capacity
      ≤ max (min power b.curve_max_power) 0 * dt * b.efficiency / b.capacity
          * b.capacity := by
        have := mul_le_mul_of_nonneg_right hds hcap.le
        exact this
    _ = max (min power b.curve_max_power) 0 * (b.efficiency * dt) := by
        field_simp
        ring
    _ ≤ max power 0 * (b.efficiency * dt) :=
        mul_le_mul_of_nonneg_right hp heffdt.le

theorem Battery.unload_drop_nonneg (b : Battery) (dt power tsoc : ℚ)
    (hcap : 0 < b.capacity) (heff : 0 < b.efficiency) (hdt : 0 ≤ dt) :
    0 ≤ - (b.unload dt power tsoc).2.soc_delta := by
  simp only [Battery.unload, neg_neg]
  exact le_min
    (div_nonneg (mul_nonneg (le_max_right _ _) hdt) (mul_nonneg hcap.le heff.le))
    (le_max_right _ _)

theorem Battery.unload_avg_nonneg (b : Battery) (dt power tsoc : ℚ)
    (hcap : 0 < b.capacity) (heff : 0 < b.efficiency) (hdt : 0 ≤ dt) :
    0 ≤ (b.unload dt power tsoc).2.avg_power := by
  have hd := Battery.unload_drop_nonneg b dt power tsoc hcap heff hdt
  simp only [Battery.unload, neg_neg] at hd ⊢
  split_ifs with h
  · exact div_nonneg (mul_nonneg (mul_nonneg hd hcap.le) heff.le) h.le
  · exact le_refl 0

theorem Battery.unload_avg_le (b : Battery) (dt power tsoc : ℚ)
    (hcap : 0 < b.capacity) (heff : 0 < b.efficiency) (hdt : 0 < dt) :
    (b.unload dt power tsoc).2.avg_power ≤ max power 0 := by
  simp only [Battery.unload]
  rw [if_pos hdt]
  have hp : max (min power b.unloading_max_power) 0 ≤ max power 0 :=
    max_le_max (min_le_left _ _) (le_refl 0)
  have hds : min (max (min power b.unloading_max_power) 0 * dt / (b.capacity * b.efficiency))
      (max (b.soc - tsoc) 0)
      ≤ max (min power b.unloading_max_power) 0 * dt / (b.capacity * b.efficiency) :=
    min_le_left _ _
  rw [div_le_iff₀ hdt]
  calc min (max (min power b.unloading_max_power) 0 * dt / (b.capacity * b.efficiency))
        (max (b.soc - tsoc) 0) * b.capacity * b.efficiency
      ≤ max (min power b.unloading_max_power) 0 * dt / (b.capacity * b.efficiency)
          * b.capacity * b.efficiency := by
        have h1 := mul_le_mul_of_nonneg_right hds hcap.le
        exact mul_le_mul_of_nonneg_right h1 heff.le
    _ = max (min power b.unloading_max_power) 0 * dt := by
        field_simp
        ring
    _ ≤ max power 0 * dt :=
        mul_le_mul_of_nonneg_right hp hdt.le

/-- Arrival branch of `Strategy.step` (netz_elog/strategy.py lines 74-79), for
the vehicle after the update map set its charging station and `soc_delta`: the
station must be set, `soc_delta` is added to the battery SOC, and the result
must be non-negative (no upper check is made). -/
def applyArrival (v : StepVehicle) (soc_delta : ℚ) : Except String StepVehicle :=
  if v.connected_charging_station.isSome then
    let v2 := { v with soc := v.soc + soc_delta }
    if 0 ≤ v2.soc then Except.ok v2
    else Except.error "SOC of vehicle should not be negative"
  else Except.error "arrival requires a connected charging station"

/-- Counterexample to C7: an arrival event with a positive `soc_delta` is
applied without error and leaves the vehicle's SOC above 1. -/
theorem c7_soc_above_one_cex :
    applyArrival ⟨some "CS1", 8/10, 9/10⟩ (6/10)
      = Except.ok ⟨some "CS1", 8/10, 3/2⟩ ∧ (1 : ℚ) < 3/2 := by
  constructor
  · have h9 : ((9 : ℚ)/10) + 6/10 = 3/2 := by norm_num
    simp [applyArrival, h9]
    norm_num
  · norm_num

/-- C7 (amended): battery charging keeps the SOC in `[0, 1]` (for a charge
target at most 1), discharging never draws the SOC below the discharge target
when it started at or above it and never raises it; event application enforces
only the lower bound `0 ≤ soc` on arrival — a positive `soc_delta` may leave
the SOC above 1 without error. -/
theorem c7_soc_invariant_amended (b : Battery) (dt p tl tu : ℚ)
    (hcap : 0 < b.capacity) (heff : 0 < b.efficiency) (hdt : 0 ≤ dt)
    (hs0 : 0 ≤ b.soc) (hs1 : b.soc ≤ 1) (htu : tu ≤ 1) :
    (0 ≤ (b.load dt p tu).1.soc ∧ (b.load dt p tu).1.soc ≤ 1) ∧
    (min b.soc tl ≤ (b.unload dt p tl).1.soc ∧ (b.unload dt p tl).1.soc ≤ b.soc) ∧
    (∀ (v : StepVehicle) (d : ℚ) (w : StepVehicle),
        applyArrival v d = Except.ok w → 0 ≤ w.soc) := by
  refine ⟨⟨?_, ?_⟩, ⟨?_, ?_⟩, ?_⟩
  · have hd := Battery.load_soc_delta_nonneg b dt p tu hcap heff hdt
    simp only [Battery.load] at hd ⊢
    linarith
  · have hdle : min (max (min p b.curve_max_power) 0 * dt * b.efficiency / b.capacity)
        (max (tu - b.soc) 0) ≤ max (tu - b.soc) 0 := min_le_right _ _
    simp only [Battery.load]
    rcases le_total tu b.soc with h | h
    · have hmax : max (tu - b.soc) 0 = 0 := max_eq_right (by linarith)
      rw [hmax] at hdle ⊢
      linarith
    · have hmax : max (tu - b.soc) 0 = tu - b.soc := max_eq_left (by linarith)
      rw [hmax] at hdle ⊢
      linarith
  · have hdle : min (max (min p b.unloading_max_power) 0 * dt / (b.capacity * b.efficiency))
        (max (b.soc - tl) 0) ≤ max (b.soc - tl) 0 := min_le_right _ _
    simp only [Battery.unload]
    rcases le_total b.soc tl with h | h
    · have hmax : max (b.soc - tl) 0 = 0 := max_eq_right (by linarith)
      rw [hmax] at hdle ⊢
      have hmin : min b.soc tl = b.soc := min_eq_left h
      rw [hmin]
      linarith
    · have hmax : max (b.soc - tl) 0 = b.soc - tl := max_eq_left (by linarith)
      rw [hmax] at hdle ⊢
      have hmin : min b.soc tl = tl := min_eq_right h
      rw [hmin]
      linarith
  · have hd := Battery.unload_drop_nonneg b dt p tl hcap heff hdt
    simp only [Battery.unload, neg_neg] at hd ⊢
    linarith
  · intro v d w h
    simp only [applyArrival] at h
    split_ifs at h with h1 h2
    cases h
    exact h2

/-- Witness for C7 (amended): a 50 kWh battery at SOC 0.5, efficiency 0.9,
charged for one hour at 11 kW toward target 0.8 and discharged toward floor
0.3; plus a concrete arrival that keeps the SOC non-negative. -/
theorem c7_soc_invariant_amended_witness :
    (0 ≤ ((⟨50, 1/2, 9/10, 22, 22, 0⟩ : Battery).load 1 11 (8/10)).1.soc ∧
      ((⟨50, 1/2, 9/10, 22, 22, 0⟩ : Battery).load 1 11 (8/10)).1.soc ≤ 1) ∧
    (min ((⟨50, 1/2, 9/10, 22, 22, 0⟩ : Battery)).soc (3/10)
        ≤ ((⟨50, 1/2, 9/10, 22, 22, 0⟩ : Battery).unload 1 11 (3/10)).1.soc ∧
      ((⟨50, 1/2, 9/10, 22, 22, 0⟩ : Battery).unload 1 11 (3/10)).1.soc
        ≤ ((⟨50, 1/2, 9/10, 22, 22, 0⟩ : Battery)).soc) ∧
    (0 : ℚ) ≤ (⟨some "CS2", 1/2, 3/10⟩ : StepVehicle).soc := by
  obtain ⟨hl, hu, harr⟩ :=
    c7_soc_invariant_amended (⟨50, 1/2, 9/10, 22, 22, 0⟩ : Battery) 1 11 (3/10) (8/10)
      (by norm_num) (by norm_num) (by norm_num) (by norm_num) (by norm_num) (by norm_num)
  refine ⟨hl, hu, ?_⟩
  apply harr ⟨some "CS2", 1/2, 2/10⟩ (1/10) ⟨some "CS2", 1/2, 3/10⟩
  have h3 : ((1 : ℚ)/2) + 1/10 = 3/10 + 3/10 := by norm_num
  norm_num [applyArrival]

/-- One battery's adjustment in `Schedule.utilize_stationary_batteries`
(schedule.py lines 729-763), given the connector's schedule `target`,
`cur_max_power` and summed current load.  Returns the updated battery and the
signed battery power added to the connector (`gc.add_load(bid, bat_power)`).
The battery operations are the spec-modelled `Battery.load`/`Battery.unload`
above. -/
def utilize_stationary_battery (EPS dt : ℚ) (target : Option ℚ)
    (cur_max_power current_load : ℚ) (bat : Battery) : Battery × ℚ :=
  match target with
  | none => (bat, 0)
  | some tgt =>
    let needed_power := tgt - current_load
    let avail_pos_power := cur_max_power - current_load
    let avail_neg_power := cur_max_power + current_load
    if needed_power < -EPS then
      let power := min (-needed_power) avail_neg_power
      let r := bat.unload dt power 0
      (r.1, -r.2.avg_power)
    else if EPS < needed_power then
      let power0 := min needed_power avail_pos_power
      let power := if power0 < bat.min_charging_power then 0 else power0
      let r := bat.load dt power 1
      (r.1, r.2.avg_power)
    else (bat, 0)

/-- C8: every interval, a stationary battery charges by at most the surplus
below the connector's target (and not at all when that surplus is under its
minimum charging power), discharges by at most the deficit above the target,
stays idle within the `EPS` dead band, and never pushes the connector's total
load past `cur_max_power` in magnitude. -/
theorem c8_utilize_stationary_batteries (EPS dt tgt cur_max current_load : ℚ)
    (bat : Battery) (hEPS : 0 < EPS) (hdt : 0 < dt)
    (hcap : 0 < bat.capacity) (heff : 0 < bat.efficiency)
    (hload : |current_load| ≤ cur_max) :
    (utilize_stationary_battery EPS dt none cur_max current_load bat).2 = 0 ∧
    (EPS < tgt - current_load →
      0 ≤ (utilize_stationary_battery EPS dt (some tgt) cur_max current_load bat).2 ∧
      (utilize_stationary_battery EPS dt (some tgt) cur_max current_load bat).2
        ≤ tgt - current_load ∧
      (min (tgt - current_load) (cur_max - current_load) < bat.min_charging_power →
        (utilize_stationary_battery EPS dt (some tgt) cur_max current_load bat).2 = 0)) ∧
    (tgt - current_load < -EPS →
      (utilize_stationary_battery EPS dt (some tgt) cur_max current_load bat).2 ≤ 0 ∧
      tgt - current_load
        ≤ (utilize_stationary_battery EPS dt (some tgt) cur_max current_load bat).2) ∧
    (-EPS ≤ tgt - current_load → tgt - current_load ≤ EPS →
      (utilize_stationary_battery EPS dt (some tgt) cur_max current_load bat).2 = 0) ∧
    |current_load
        + (utilize_stationary_battery EPS dt (some tgt) cur_max current_load bat).2|
      ≤ cur_max := by
  obtain ⟨hlo, hhi⟩ := abs_le.mp hload
  have hcharge : ∀ (hc2 : EPS < tgt - current_load),
      (utilize_stationary_battery EPS dt (some tgt) cur_max current_load bat).2
        = (bat.load dt (if min (tgt - current_load) (cur_max - current_load)
              < bat.min_charging_power then 0
            else min (tgt - current_load) (cur_max - current_load)) 1).2.avg_power := by
    intro hc2
    have h1 : ¬ (tgt - current_load < -EPS) := by linarith
    simp only [utilize_stationary_battery]
    rw [if_neg h1, if_pos hc2]
  have hdis : ∀ (hc1 : tgt - current_load < -EPS),
      (utilize_stationary_battery EPS dt (some tgt) cur_max current_load bat).2
        = -(bat.unload dt (min (-(tgt - current_load)) (cur_max + current_load))
            0).2.avg_power := by
    intro hc1
    simp only [utilize_stationary_battery]
    rw [if_pos hc1]
  have helse : ∀ (hc1 : ¬ (tgt - current_load < -EPS))
      (hc2 : ¬ (EPS < tgt - current_load)),
      (utilize_stationary_battery EPS dt (some tgt) cur_max current_load bat).2 = 0 := by
    intro hc1 hc2
    simp only [utilize_stationary_battery]
    rw [if_neg hc1, if_neg hc2]
  have hap : (0 : ℚ) ≤ cur_max - current_load := by linarith
  refine ⟨rfl, ?_, ?_, ?_, ?_⟩
  · intro h
    rw [hcharge h]
    set pw := if min (tgt - current_load) (cur_max - current_load)
        < bat.min_charging_power then 0
      else min (tgt - current_load) (cur_max - current_load) with hpw
    have hbp0 : 0 ≤ (bat.load dt pw 1).2.avg_power :=
      Battery.load_avg_nonneg bat dt pw 1 hcap heff hdt.le
    have hble : (bat.load dt pw 1).2.avg_power ≤ max pw 0 :=
      Battery.load_avg_le bat dt pw 1 hcap heff hdt
    have hmaxle : max pw 0 ≤ tgt - current_load := by
      by_cases hm : min (tgt - current_load) (cur_max - current_load)
          < bat.min_charging_power
      · rw [hpw, if_pos hm]
        simp only [max_self]
        linarith
      · rw [hpw, if_neg hm]
        exact max_le (min_le_left _ _) (by linarith)
    refine ⟨hbp0, by linarith, ?_⟩
    intro hm
    have hz : pw = 0 := by rw [hpw, if_pos hm]
    have hmz : max pw 0 = 0 := by rw [hz]; simp
    rw [hmz] at hble
    linarith
  · intro h
    rw [hdis h]
    have hpow0 : (0 : ℚ) ≤ min (-(tgt - current_load)) (cur_max + current_load) :=
      le_min (by linarith) (by linarith)
    have hbp0 : 0 ≤ (bat.unload dt (min (-(tgt - current_load))
        (cur_max + current_load)) 0).2.avg_power :=
      Battery.unload_avg_nonneg bat dt _ 0 hcap heff hdt.le
    have hble : (bat.unload dt (min (-(tgt - current_load))
        (cur_max + current_load)) 0).2.avg_power
        ≤ max (min (-(tgt - current_load)) (cur_max + current_load)) 0 :=
      Battery.unload_avg_le bat dt _ 0 hcap heff hdt
    rw [max_eq_left hpow0] at hble
    have hmle : min (-(tgt - current_load)) (cur_max + current_load)
        ≤ -(tgt - current_load) := min_le_left _ _
    constructor
    · linarith
    · linarith
  · intro h1 h2
    exact helse (by linarith) (by linarith)
  · by_cases hc1 : tgt - current_load < -EPS
    · rw [hdis hc1]
      have hbp0 : 0 ≤ (bat.unload dt (min (-(tgt - current_load))
          (cur_max + current_load)) 0).2.avg_power :=
        Battery.unload_avg_nonneg bat dt _ 0 hcap heff hdt.le
      have hpow0 : (0 : ℚ) ≤ min (-(tgt - current_load)) (cur_max + current_load) :=
        le_min (by linarith) (by linarith)
      have hble : (bat.unload dt (min (-(tgt - current_load))
          (cur_max + current_load)) 0).2.avg_power
          ≤ max (min (-(tgt - current_load)) (cur_max + current_load)) 0 :=
        Battery.unload_avg_le bat dt _ 0 hcap heff hdt
      rw [max_eq_left hpow0] at hble
      have hmr : min (-(tgt - current_load)) (cur_max + current_load)
          ≤ cur_max + current_load := min_le_right _ _
      rw [abs_le]
      constructor
      · linarith
      · linarith
    · by_cases hc2 : EPS < tgt - current_load
      · rw [hcharge hc2]
        set pw := if min (tgt - current_load) (cur_max - current_load)
            < bat.min_charging_power then 0
          else min (tgt - current_load) (cur_max - current_load) with hpw
        have hbp0 : 0 ≤ (bat.load dt pw 1).2.avg_power :=
          Battery.load_avg_nonneg bat dt pw 1 hcap heff hdt.le
        have hble : (bat.load dt pw 1).2.avg_power ≤ max pw 0 :=
          Battery.load_avg_le bat dt pw 1 hcap heff hdt
        have hmaxle : max pw 0 ≤ cur_max - current_load := by
          by_cases hm : min (tgt - current_load) (cur_max - current_load)
              < bat.min_charging_power
          · rw [hpw, if_pos hm]
            simp only [max_self]
            linarith
          · rw [hpw, if_neg hm]
            exact max_le (min_le_right _ _) hap
        rw [abs_le]
        constructor
        · linarith
        · linarith
      · rw [helse hc1 hc2, add_zero]
        exact hload

/-- Witness for C8: connector target 30 kW, cap 100 kW, current load 10 kW,
10 kWh battery at SOC 0.5: the battery charges by at most the 20 kW surplus
and the connector load stays within the cap. -/
theorem c8_utilize_stationary_batteries_witness :
    0 ≤ (utilize_stationary_battery (1/100000) (1/4) (some 30) 100 10
        ⟨10, 1/2, 9/10, 50, 50, 0⟩).2 ∧
    (utilize_stationary_battery (1/100000) (1/4) (some 30) 100 10
        ⟨10, 1/2, 9/10, 50, 50, 0⟩).2 ≤ 30 - 10 ∧
    |10 + (utilize_stationary_battery (1/100000) (1/4) (some 30) 100 10
        ⟨10, 1/2, 9/10, 50, 50, 0⟩).2| ≤ 100 := by
  obtain ⟨-, hch, -, -, habs⟩ :=
    c8_utilize_stationary_batteries (1/100000) (1/4) 30 100 10
      ⟨10, 1/2, 9/10, 50, 50, 0⟩ (by norm_num) (by norm_num) (by norm_num)
      (by norm_num) (by rw [abs_of_nonneg] <;> norm_num)
  obtain ⟨h1, h2, -⟩ := hch (by norm_num)
  exact ⟨h1, by linarith [h2], habs⟩

/-- A charging station (netz_elog/constants.py `ChargingStation`): it cannot
deliver less than `min_power` nor more than `max_power` while active. -/
structure ChargingStation where
  min_power : ℚ
  max_power : ℚ
deriving DecidableEq

/-- A vehicle as the Schedule strategy sees it: connection state, the vehicle
type's minimum charging power, desired SOC, and its battery (whose
`curve_max_power` stands for `vehicle_type.charging_curve.max_power`). -/
structure SimVehicle where
  connected : Bool
  min_charging_power : ℚ
  desired_soc : ℚ
  battery : Battery
deriving DecidableEq

/-- Modelled from the spec: `util.clamp_power` (util.py is not under src/).
Per the data model a station cannot deliver less than its own or the
vehicle's minimum power — such requests become 0 — and never more than the
station's or the charging curve's maximum. -/
def clamp_power (power : ℚ) (v : SimVehicle) (cs : ChargingStation) : ℚ :=
  if power < cs.min_power ∨ power < v.min_charging_power then 0
  else min power (min cs.max_power v.battery.curve_max_power)

/-- Iteration floor of the balanced-charging search (schedule.py line 21:
`self.ITERATIONS = 12`). -/
def ITERATIONS : ℕ := 12

/-- Loop state of the binary search in `Schedule.sim_balanced_charging`
(schedule.py lines 92-115): the current bounds, the iteration counter, the
`safe` flag, the last tried power with its simulated SOC gain, and the
battery SOC (the vehicle's battery is mutated by each probe and restored). -/
structure SBCState where
  min_power : ℚ
  max_power : ℚ
  idx : ℕ
  safe : Bool
  power : ℚ
  charged_soc : ℚ
  soc : ℚ
deriving DecidableEq

/-- The `while` guard (schedule.py line 99):
`(idx < ITERATIONS or not safe) and max_power - min_power > EPS`. -/
def sbcCond (EPS : ℚ) (st : SBCState) : Bool :=
  (decide (st.idx < ITERATIONS) || !st.safe)
    && decide (EPS < st.max_power - st.min_power)

/-- One iteration of the search (schedule.py lines 100-115): probe the
midpoint power, simulate a full-duration charge from the saved SOC, restore
the SOC, and move the `min_power` (not enough) or `max_power` (safe) bound to
the midpoint. -/
def sbcStep (EPS dt delta_soc old_soc : ℚ) (bat : Battery) (st : SBCState) :
    SBCState :=
  let power := (st.max_power + st.min_power) / 2
  let charged := (({ bat with soc := st.soc }).load dt power 1).2.soc_delta
  if EPS < delta_soc - charged then
    { st with idx := st.idx + 1, power := power, charged_soc := charged,
              soc := old_soc, safe := false, min_power := power }
  else
    { st with idx := st.idx + 1, power := power, charged_soc := charged,
              soc := old_soc, safe := true, max_power := power }

/-- The search loop, with explicit fuel bounding the iteration count; the
loop exits as soon as the guard fails, and since the interval halves each
iteration, `sbcFuel` fuel always reaches that point. -/
def sbcLoop (EPS dt delta_soc old_soc : ℚ) (bat : Battery) :
    ℕ → SBCState → SBCState
  | 0, st => st
  | fuel + 1, st =>
    if sbcCond EPS st then
      sbcLoop EPS dt delta_soc old_soc bat fuel
        (sbcStep EPS dt delta_soc old_soc bat st)
    else st

/-- Fuel sufficient for the search to reach its exit condition: with `n`
halvings the interval width `w` falls below `EPS` once `2 ^ n` exceeds
`w / EPS`. -/
def sbcFuel (EPS w : ℚ) : ℕ := ⌈w / EPS⌉.toNat

/-- Result of `sim_balanced_charging`: the returned `opt_power` and
`charged_soc`, plus the vehicle battery's final SOC (the in-place state). -/
structure SBCResult where
  opt_power : ℚ
  charged_soc : ℚ
  final_soc : ℚ
deriving DecidableEq

/-- Initial loop state of `sim_balanced_charging` (schedule.py lines 88-98):
`min_power = max(vehicle min, station min)`, `max_power` capped by the
charging curve and clamped, `safe = False`, saved SOC. -/
def sbcInit (v : SimVehicle) (cs : ChargingStation) (max_power : ℚ) : SBCState :=
  { min_power := max v.min_charging_power cs.min_power,
    max_power := clamp_power (min max_power v.battery.curve_max_power) v cs,
    idx := 0, safe := false, power := 0, charged_soc := 0, soc := v.battery.soc }

/-- `Schedule.sim_balanced_charging` (schedule.py lines 54-117): `none` when
the vehicle is not connected, no search when the requested `delta_soc` is
within `EPS`, otherwise the binary search run with the given fuel. -/
def sim_balanced_charging (EPS : ℚ) (fuel : ℕ) (v : SimVehicle)
    (cs : ChargingStation) (dt max_power delta_soc : ℚ) : Option SBCResult :=
  if !v.connected then none
  else if EPS < delta_soc then
    let st := sbcLoop EPS dt delta_soc v.battery.soc v.battery fuel
      (sbcInit v cs max_power)
    some { opt_power := st.power, charged_soc := st.charged_soc,
           final_soc := st.soc }
  else
    some { opt_power := 0, charged_soc := 0, final_soc := v.battery.soc }

/-- Projection used to state concrete facts about an optional search result. -/
def sbcChargedSoc (o : Option SBCResult) : ℚ :=
  match o with
  | none => 0
  | some r => r.charged_soc

theorem sbcStep_width (EPS dt ds os : ℚ) (bat : Battery) (st : SBCState) :
    (sbcStep EPS dt ds os bat st).max_power
        - (sbcStep EPS dt ds os bat st).min_power
      = (st.max_power - st.min_power) / 2 := by
  simp only [sbcStep]
  split_ifs <;> (dsimp only) <;> ring

theorem sbcLoop_of_not_cond (EPS dt ds os : ℚ) (bat : Battery) (n : ℕ)
    (st : SBCState) (h : sbcCond EPS st = false) :
    sbcLoop EPS dt ds os bat n st = st := by
  cases n with
  | zero => rfl
  | succ m => simp [sbcLoop, h]

theorem sbcLoop_add (EPS dt ds os : ℚ) (bat : Battery) (m n : ℕ) (st : SBCState) :
    sbcLoop EPS dt ds os bat (m + n) st
      = sbcLoop EPS dt ds os bat n (sbcLoop EPS dt ds os bat m st) := by
  induction m generalizing st with
  | zero => simp [sbcLoop]
  | succ k ih =>
    by_cases h : sbcCond EPS st = true
    · have h1 : sbcLoop EPS dt ds os bat (k + 1) st
          = sbcLoop EPS dt ds os bat k (sbcStep EPS dt ds os bat st) := by
        simp [sbcLoop, h]
      have h2 : k + 1 + n = (k + n) + 1 := by omega
      rw [h2]
      have h3 : sbcLoop EPS dt ds os bat ((k + n) + 1) st
          = sbcLoop EPS dt ds os bat (k + n) (sbcStep EPS dt ds os bat st) := by
        simp [sbcLoop, h]
      rw [h3, ih, h1]
    · have hf : sbcCond EPS st = false := by
        cases hc : sbcCond EPS st
        · rfl
        · exact absurd hc h
      rw [sbcLoop_of_not_cond _ _ _ _ _ _ _ hf,
        sbcLoop_of_not_cond _ _ _ _ _ _ _ hf,
        sbcLoop_of_not_cond _ _ _ _ _ _ _ hf]

theorem sbcLoop_stops (EPS dt ds os : ℚ) (bat : Battery) (n : ℕ)
    (st : SBCState) (hw : st.max_power - st.min_power ≤ EPS * 2 ^ n) :
    sbcCond EPS (sbcLoop EPS dt ds os bat n st) = false := by
  induction n generalizing st with
  | zero =>
    simp only [pow_zero, mul_one] at hw
    have : decide (EPS < st.max_power - st.min_power) = false := by
      simp only [decide_eq_false_iff_not, not_lt]
      exact hw
    rw [sbcLoop]
    simp [sbcCond, this]
  | succ k ih =>
    by_cases h : sbcCond EPS st = true
    · have h1 : sbcLoop EPS dt ds os bat (k + 1) st
          = sbcLoop EPS dt ds os bat k (sbcStep EPS dt ds os bat st) := by
        simp [sbcLoop, h]
      rw [h1]
      apply ih
      rw [sbcStep_width]
      rw [pow_succ] at hw
      linarith
    · have hf : sbcCond EPS st = false := by
        cases hc : sbcCond EPS st
        · rfl
        · exact absurd hc h
      rw [sbcLoop_of_not_cond _ _ _ _ _ _ _ hf]
      exact hf

theorem sbcFuel_spec (EPS w : ℚ) (hEPS : 0 < EPS) :
    w ≤ EPS * 2 ^ sbcFuel EPS w := by
  unfold sbcFuel
  rcases le_or_lt w 0 with hw | hw
  · have hp : (0 : ℚ) < EPS * 2 ^ (⌈w / EPS⌉.toNat) := by positivity
    linarith
  · have hq : 0 < w / EPS := div_pos hw hEPS
    have hceil : w / EPS ≤ (⌈w / EPS⌉ : ℚ) := Int.le_ceil _
    have hc0 : 0 ≤ ⌈w / EPS⌉ := Int.ceil_nonneg hq.le
    have hcast : ((⌈w / EPS⌉.toNat : ℕ) : ℚ) = ((⌈w / EPS⌉ : ℤ) : ℚ) := by
      exact_mod_cast Int.toNat_of_nonneg hc0
    have hlt : ((⌈w / EPS⌉.toNat : ℕ) : ℚ) < 2 ^ (⌈w / EPS⌉.toNat) := by
      exact_mod_cast Nat.lt_two_pow (⌈w / EPS⌉.toNat)
    have hq2 : w / EPS < 2 ^ (⌈w / EPS⌉.toNat) := by
      rw [← hcast] at hceil
      linarith
    have hfin : w ≤ 2 ^ (⌈w / EPS⌉.toNat) * EPS := (div_le_iff₀ hEPS).mp hq2.le
    linarith [hfin, mul_comm ((2 : ℚ) ^ (⌈w / EPS⌉.toNat)) EPS]

theorem sbcLoop_soc (EPS dt ds old_soc : ℚ) (bat : Battery) (n : ℕ)
    (st : SBCState) (h : st.soc = old_soc) :
    (sbcLoop EPS dt ds old_soc bat n st).soc = old_soc := by
  induction n generalizing st with
  | zero => exact h
  | succ k ih =>
    by_cases hc : sbcCond EPS st = true
    · have h1 : sbcLoop EPS dt ds old_soc bat (k + 1) st
          = sbcLoop EPS dt ds old_soc bat k (sbcStep EPS dt ds old_soc bat st) := by
        simp [sbcLoop, hc]
      rw [h1]
      apply ih
      simp only [sbcStep]
      split_ifs <;> rfl
    · have hf : sbcCond EPS st = false := by
        cases hcc : sbcCond EPS st
        · rfl
        · exact absurd hcc hc
      rw [sbcLoop_of_not_cond _ _ _ _ _ _ _ hf]
      exact h

theorem sbcLoop_safe (EPS dt ds os : ℚ) (bat : Battery) (n : ℕ) (st : SBCState)
    (h : st.safe = true → ds - st.charged_soc ≤ EPS) :
    (sbcLoop EPS dt ds os bat n st).safe = true
      → ds - (sbcLoop EPS dt ds os bat n st).charged_soc ≤ EPS := by
  induction n generalizing st with
  | zero => exact h
  | succ k ih =>
    by_cases hc : sbcCond EPS st = true
    · have h1 : sbcLoop EPS dt ds os bat (k + 1) st
          = sbcLoop EPS dt ds os bat k (sbcStep EPS dt ds os bat st) := by
        simp [sbcLoop, hc]
      rw [h1]
      apply ih
      simp only [sbcStep]
      split_ifs with hcmp
      · intro habs
        simp at habs
      · intro _
        dsimp only
        linarith [not_lt.mp hcmp]
    · have hf : sbcCond EPS st = false := by
        cases hcc : sbcCond EPS st
        · rfl
        · exact absurd hcc hc
      rw [sbcLoop_of_not_cond _ _ _ _ _ _ _ hf]
      exact h

/-- Interval bounds maintained by the binary search: the moving bounds stay
inside the initial `[lo, hi]`, ordered, and after any iteration the probed
power lies in `[lo, hi]` as well. -/
def SBCInBounds (lo hi : ℚ) (st : SBCState) : Prop :=
  lo ≤ st.min_power ∧ st.max_power ≤ hi ∧ st.min_power ≤ st.max_power ∧
    (st.idx = 0 ∨ (lo ≤ st.power ∧ st.power ≤ hi))

theorem sbcStep_bounds (EPS dt ds os : ℚ) (bat : Battery) (st : SBCState)
    (lo hi : ℚ) (hc : sbcCond EPS st = true) (hin : SBCInBounds lo hi st) :
    SBCInBounds lo hi (sbcStep EPS dt ds os bat st) := by
  obtain ⟨h1, h2, h3, -⟩ := hin
  have hw : EPS < st.max_power - st.min_power := by
    simp only [sbcCond, Bool.and_eq_true, decide_eq_true_eq] at hc
    exact hc.2
  have hmid1 : st.min_power ≤ (st.max_power + st.min_power) / 2 := by linarith
  have hmid2 : (st.max_power + st.min_power) / 2 ≤ st.max_power := by linarith
  simp only [sbcStep]
  split_ifs
  · exact ⟨by dsimp only; linarith, by dsimp only; linarith,
      by dsimp only; linarith, Or.inr ⟨by dsimp only; linarith, by dsimp only; linarith⟩⟩
  · exact ⟨by dsimp only; linarith, by dsimp only; linarith,
      by dsimp only; linarith, Or.inr ⟨by dsimp only; linarith, by dsimp only; linarith⟩⟩

theorem sbcLoop_bounds (EPS dt ds os : ℚ) (bat : Battery) (n : ℕ)
    (st : SBCState) (lo hi : ℚ) (hin : SBCInBounds lo hi st) :
    SBCInBounds lo hi (sbcLoop EPS dt ds os bat n st) := by
  induction n generalizing st with
  | zero => exact hin
  | succ k ih =>
    by_cases hc : sbcCond EPS st = true
    · have h1 : sbcLoop EPS dt ds os bat (k + 1) st
          = sbcLoop EPS dt ds os bat k (sbcStep EPS dt ds os bat st) := by
        simp [sbcLoop, hc]
      rw [h1]
      exact ih _ (sbcStep_bounds EPS dt ds os bat st lo hi hc hin)
    · have hf : sbcCond EPS st = false := by
        cases hcc : sbcCond EPS st
        · rfl
        · exact absurd hcc hc
      rw [sbcLoop_of_not_cond _ _ _ _ _ _ _ hf]
      exact hin

/-- The search state after running the loop with the given fuel from the
initial state of `sim_balanced_charging`. -/
def sbcRun (EPS dt delta_soc : ℚ) (v : SimVehicle) (cs : ChargingStation)
    (max_power : ℚ) (fuel : ℕ) : SBCState :=
  sbcLoop EPS dt delta_soc v.battery.soc v.battery fuel (sbcInit v cs max_power)

/-- Fuel sufficient for the search from the initial state: enough halvings of
the initial interval width. -/
def sbcBound (EPS : ℚ) (v : SimVehicle) (cs : ChargingStation)
    (max_power : ℚ) : ℕ :=
  sbcFuel EPS ((sbcInit v cs max_power).max_power - (sbcInit v cs max_power).min_power)

/-- C1 (amended): for a connected vehicle needing more than `EPS` of SOC, the
binary search of `sim_balanced_charging` stabilises within `sbcBound` fuel
(the guard is false there and any larger fuel returns the same state and
result, with the vehicle's SOC restored); if the loop exits with the `safe`
flag set, the simulated charge reaches `delta_soc` up to `EPS` (the final
accepted iteration is on the "too much power" side); and the returned power
lies within the clamped initial search interval whenever at least one
iteration ran.  When the interval collapses below `EPS` on the "not enough
power" side, the charge may fall short of `delta_soc` (see the
counterexample). -/
theorem c1_sim_balanced_charging_amended (EPS dt max_power delta_soc : ℚ)
    (v : SimVehicle) (cs : ChargingStation)
    (hEPS : 0 < EPS) (hconn : v.connected = true) (hdelta : EPS < delta_soc) :
    sbcCond EPS (sbcRun EPS dt delta_soc v cs max_power
        (sbcBound EPS v cs max_power)) = false ∧
    (∀ fuel, sbcBound EPS v cs max_power ≤ fuel →
      sbcRun EPS dt delta_soc v cs max_power fuel
          = sbcRun EPS dt delta_soc v cs max_power (sbcBound EPS v cs max_power) ∧
      sim_balanced_charging EPS fuel v cs dt max_power delta_soc
        = some { opt_power := (sbcRun EPS dt delta_soc v cs max_power
                    (sbcBound EPS v cs max_power)).power,
                 charged_soc := (sbcRun EPS dt delta_soc v cs max_power
                    (sbcBound EPS v cs max_power)).charged_soc,
                 final_soc := v.battery.soc }) ∧
    ((sbcRun EPS dt delta_soc v cs max_power (sbcBound EPS v cs max_power)).safe = true →
      delta_soc - (sbcRun EPS dt delta_soc v cs max_power
          (sbcBound EPS v cs max_power)).charged_soc ≤ EPS) ∧
    ((sbcRun EPS dt delta_soc v cs max_power (sbcBound EPS v cs max_power)).idx = 0 ∨
      ((sbcInit v cs max_power).min_power
          ≤ (sbcRun EPS dt delta_soc v cs max_power (sbcBound EPS v cs max_power)).power ∧
        (sbcRun EPS dt delta_soc v cs max_power
            (sbcBound EPS v cs max_power)).power ≤ (sbcInit v cs max_power).max_power)) := by
  have hstop : sbcCond EPS (sbcRun EPS dt delta_soc v cs max_power
      (sbcBound EPS v cs max_power)) = false := by
    unfold sbcRun sbcBound
    exact sbcLoop_stops EPS dt delta_soc v.battery.soc v.battery _ _
      (sbcFuel_spec EPS _ hEPS)
  have hsoc : (sbcRun EPS dt delta_soc v cs max_power
      (sbcBound EPS v cs max_power)).soc = v.battery.soc := by
    unfold sbcRun
    exact sbcLoop_soc EPS dt delta_soc v.battery.soc v.battery _ _ rfl
  have hfreeze : ∀ fuel, sbcBound EPS v cs max_power ≤ fuel →
      sbcRun EPS dt delta_soc v cs max_power fuel
        = sbcRun EPS dt delta_soc v cs max_power (sbcBound EPS v cs max_power) := by
    intro fuel hle
    obtain ⟨k, rfl⟩ := Nat.exists_eq_add_of_le hle
    unfold sbcRun
    rw [sbcLoop_add]
    rw [sbcLoop_of_not_cond]
    exact hstop
  refine ⟨hstop, ?_, ?_, ?_⟩
  · intro fuel hle
    refine ⟨hfreeze fuel hle, ?_⟩
    have hnc : (!v.connected) = false := by rw [hconn]; rfl
    simp only [sim_balanced_charging, hnc, Bool.false_eq_true, if_false, if_pos hdelta]
    have hlp : sbcLoop EPS dt delta_soc v.battery.soc v.battery fuel
        (sbcInit v cs max_power)
        = sbcRun EPS dt delta_soc v cs max_power (sbcBound EPS v cs max_power) :=
      hfreeze fuel hle
    rw [hlp, hsoc]
  · intro hsafe
    have hinit : (sbcInit v cs max_power).safe = true
        → delta_soc - (sbcInit v cs max_power).charged_soc ≤ EPS := by
      intro habs
      simp [sbcInit] at habs
    exact sbcLoop_safe EPS dt delta_soc v.battery.soc v.battery _ _ hinit hsafe
  · rcases le_total (sbcInit v cs max_power).min_power
        (sbcInit v cs max_power).max_power with hmm | hmm
    · have hin : SBCInBounds (sbcInit v cs max_power).min_power
          (sbcInit v cs max_power).max_power (sbcInit v cs max_power) :=
        ⟨le_refl _, le_refl _, hmm, Or.inl rfl⟩
      exact (sbcLoop_bounds EPS dt delta_soc v.battery.soc v.battery _
        (sbcInit v cs max_power) _ _ hin).2.2.2
    · left
      have hcf : sbcCond EPS (sbcInit v cs max_power) = false := by
        have hng : ¬ (EPS < (sbcInit v cs max_power).max_power
            - (sbcInit v cs max_power).min_power) := by
          intro hcontra
          have : (sbcInit v cs max_power).min_power
              < (sbcInit v cs max_power).max_power := by linarith
          linarith
        simp [sbcCond, hng]
      unfold sbcRun
      rw [sbcLoop_of_not_cond _ _ _ _ _ _ _ hcf]
      rfl

/-- A connected vehicle whose battery is far too large for its charging curve:
charging at full power for the whole duration cannot reach the requested
delta SOC. -/
def vInfeasible : SimVehicle := ⟨true, 0, 1, ⟨1000, 0, 1, 4, 4, 0⟩⟩

/-- A connected vehicle for which the requested delta SOC is easily reachable. -/
def vFeasible : SimVehicle := ⟨true, 0, 1, ⟨4, 0, 1, 4, 4, 0⟩⟩

/-- A 4 kW charging station with no minimum power. -/
def csSimple : ChargingStation := ⟨0, 4⟩

theorem sbcLoop_eval (EPS dt ds os : ℚ) (bat : Battery) (n : ℕ)
    (st st2 : SBCState) (hc : sbcCond EPS st = true)
    (hs : sbcStep EPS dt ds os bat st = st2) :
    sbcLoop EPS dt ds os bat (n + 1) st = sbcLoop EPS dt ds os bat n st2 := by
  simp only [sbcLoop]
  rw [if_pos hc, hs]

/-- Counterexample to C1: a vehicle whose power ceiling cannot supply the
requested `delta_soc = 0.5` in `dt = 1 h` makes the search end on the "not
enough power" side with `charged_soc` far below `delta_soc` (even below
`delta_soc - EPS`); the final conjunct shows the search had genuinely
terminated: the loop guard is false at the returned state. -/
theorem c1_reaches_delta_soc_cex :
    sim_balanced_charging (1/4) 5 vInfeasible csSimple 1 4 (1/2)
      = some { opt_power := 15/4, charged_soc := 3/800, final_soc := 0 } ∧
    (3 : ℚ)/800 < 1/2 - 1/4 ∧
    sbcCond (1/4) (sbcRun (1/4) 1 (1/2) vInfeasible csSimple 4 5) = false := by
  have hinit : sbcInit vInfeasible csSimple 4 = ⟨0, 4, 0, false, 0, 0, 0⟩ := by
    norm_num [sbcInit, clamp_power, vInfeasible, csSimple]
  have c0 : sbcCond (1/4) (⟨0, 4, 0, false, 0, 0, 0⟩ : SBCState) = true := by
    norm_num [sbcCond, ITERATIONS]
  have c1 : sbcCond (1/4) (⟨2, 4, 1, false, 2, 1/500, 0⟩ : SBCState) = true := by
    norm_num [sbcCond, ITERATIONS]
  have c2 : sbcCond (1/4) (⟨3, 4, 2, false, 3, 3/1000, 0⟩ : SBCState) = true := by
    norm_num [sbcCond, ITERATIONS]
  have c3 : sbcCond (1/4) (⟨7/2, 4, 3, false, 7/2, 7/2000, 0⟩ : SBCState) = true := by
    norm_num [sbcCond, ITERATIONS]
  have c4 : sbcCond (1/4) (⟨15/4, 4, 4, false, 15/4, 3/800, 0⟩ : SBCState) = false := by
    norm_num [sbcCond, ITERATIONS]
  have hs0 : sbcStep (1/4) 1 (1/2) vInfeasible.battery.soc vInfeasible.battery
      ⟨0, 4, 0, false, 0, 0, 0⟩ = ⟨2, 4, 1, false, 2, 1/500, 0⟩ := by
    norm_num [sbcStep, Battery.load, vInfeasible, min_def, max_def]
  have hs1 : sbcStep (1/4) 1 (1/2) vInfeasible.battery.soc vInfeasible.battery
      ⟨2, 4, 1, false, 2, 1/500, 0⟩ = ⟨3, 4, 2, false, 3, 3/1000, 0⟩ := by
    norm_num [sbcStep, Battery.load, vInfeasible, min_def, max_def]
  have hs2 : sbcStep (1/4) 1 (1/2) vInfeasible.battery.soc vInfeasible.battery
      ⟨3, 4, 2, false, 3, 3/1000, 0⟩ = ⟨7/2, 4, 3, false, 7/2, 7/2000, 0⟩ := by
    norm_num [sbcStep, Battery.load, vInfeasible, min_def, max_def]
  have hs3 : sbcStep (1/4) 1 (1/2) vInfeasible.battery.soc vInfeasible.battery
      ⟨7/2, 4, 3, false, 7/2, 7/2000, 0⟩ = ⟨15/4, 4, 4, false, 15/4, 3/800, 0⟩ := by
    norm_num [sbcStep, Battery.load, vInfeasible, min_def, max_def]
  have hrun : sbcRun (1/4) 1 (1/2) vInfeasible csSimple 4 5
      = ⟨15/4, 4, 4, false, 15/4, 3/800, 0⟩ := by
    unfold sbcRun
    rw [hinit]
    rw [sbcLoop_eval (1/4) 1 (1/2) vInfeasible.battery.soc vInfeasible.battery 4
      _ _ c0 hs0]
    rw [sbcLoop_eval (1/4) 1 (1/2) vInfeasible.battery.soc vInfeasible.battery 3
      _ _ c1 hs1]
    rw [sbcLoop_eval (1/4) 1 (1/2) vInfeasible.battery.soc vInfeasible.battery 2
      _ _ c2 hs2]
    rw [sbcLoop_eval (1/4) 1 (1/2) vInfeasible.battery.soc vInfeasible.battery 1
      _ _ c3 hs3]
    exact sbcLoop_of_not_cond _ _ _ _ _ _ _ c4
  refine ⟨?_, by norm_num, ?_⟩
  · have hnc : (!vInfeasible.connected) = false := rfl
    simp only [sim_balanced_charging, hnc, Bool.false_eq_true, if_false]
    rw [if_pos (by norm_num : (1 : ℚ)/4 < 1/2)]
    have hlp : sbcLoop (1/4) 1 (1/2) vInfeasible.battery.soc vInfeasible.battery 5
        (sbcInit vInfeasible csSimple 4) = ⟨15/4, 4, 4, false, 15/4, 3/800, 0⟩ := hrun
    rw [hlp]
  · rw [hrun]
    exact c4

/-- Witness for C1 (amended): the feasible 4 kWh vehicle at SOC 0, needing
0.5 SOC in one hour with tolerance 1/4: the search stabilises at its fuel
bound and the result leaves the battery SOC untouched. -/
theorem c1_sim_balanced_charging_amended_witness :
    sbcCond (1/4) (sbcRun (1/4) 1 (1/2) vFeasible csSimple 4
        (sbcBound (1/4) vFeasible csSimple 4)) = false ∧
    sim_balanced_charging (1/4) (sbcBound (1/4) vFeasible csSimple 4)
        vFeasible csSimple 1 4 (1/2)
      = some { opt_power := (sbcRun (1/4) 1 (1/2) vFeasible csSimple 4
                   (sbcBound (1/4) vFeasible csSimple 4)).power,
               charged_soc := (sbcRun (1/4) 1 (1/2) vFeasible csSimple 4
                   (sbcBound (1/4) vFeasible csSimple 4)).charged_soc,
               final_soc := vFeasible.battery.soc } := by
  obtain ⟨h1, h2, -, -⟩ :=
    c1_sim_balanced_charging_amended (1/4) 1 4 (1/2) vFeasible csSimple
      (by norm_num) rfl (by norm_num)
  exact ⟨h1, (h2 _ (le_refl _)).2⟩

/-- Per-vehicle shortfall estimate in
`Schedule.evaluate_core_standing_time_ahead` (schedule.py lines 229-237):
simulate a full-power charge toward `desired_soc`, read the remaining delta
SOC (`vehicle.get_delta_soc()`), and restore the saved SOC. -/
def evaluate_extra_energy (EPS dt : ℚ) (v : SimVehicle) (cs : ChargingStation) :
    ℚ × SimVehicle :=
  let max_charging_power := min v.battery.curve_max_power cs.max_power
  let old_soc := v.battery.soc
  let b1 := (v.battery.load dt max_charging_power v.desired_soc).1
  let delta_soc := v.desired_soc - b1.soc
  let extra := if EPS < delta_soc then delta_soc else 0
  (extra, { v with battery := { b1 with soc := old_soc } })

/-- C10: the balanced-charging search is pure up to its returned values — the
battery SOC probed inside the loop is restored on every iteration, so the
loop leaves the SOC at its saved value, `sim_balanced_charging` returns the
vehicle's battery SOC unchanged, and the hypothetical charge simulated per
vehicle in `evaluate_core_standing_time_ahead` leaves the vehicle exactly as
it was. -/
theorem c10_sim_balanced_charging_pure (EPS dt delta_soc old_soc : ℚ)
    (bat : Battery) (fuel : ℕ) (st : SBCState) (v : SimVehicle)
    (cs : ChargingStation) (max_power EPS2 dt2 : ℚ) :
    (st.soc = old_soc →
      (sbcLoop EPS dt delta_soc old_soc bat fuel st).soc = old_soc) ∧
    (∀ r, sim_balanced_charging EPS fuel v cs dt max_power delta_soc = some r →
      r.final_soc = v.battery.soc) ∧
    (evaluate_extra_energy EPS2 dt2 v cs).2 = v := by
  refine ⟨fun h => sbcLoop_soc EPS dt delta_soc old_soc bat fuel st h, ?_, ?_⟩
  · intro r hr
    by_cases hc : v.connected
    · have hnc : (!v.connected) = false := by rw [hc]; rfl
      simp only [sim_balanced_charging, hnc, Bool.false_eq_true, if_false] at hr
      by_cases hd : EPS < delta_soc
      · rw [if_pos hd] at hr
        cases hr
        exact sbcLoop_soc EPS dt delta_soc v.battery.soc v.battery fuel _ rfl
      · rw [if_neg hd] at hr
        cases hr
        rfl
    · have hnc : (!v.connected) = true := by
        cases hcc : v.connected
        · rfl
        · exact absurd hcc hc
      simp only [sim_balanced_charging, hnc, if_true] at hr
      cases hr
  · rfl
